import Mathlib

/-!
Verification of the node-based segment tree in `segment_tree_node.py`.

The Python module defines a class `SegmentTreeNode` with fields
`start`, `end`, `value`, `left`, `right` (the children are `Optional`),
and a class `SegmentTree` with methods `__init__` (construction),
`_build`, `update`, `_update`, `query`, `_query`.

The embedding below mirrors the source: nodes are a (nested) inductive
with optional children; the mutating `update` is modelled as a function
returning the new tree; `__init__`, which raises `ValueError` on an
empty input list, is modelled with `Except String`.
-/

/-- The `SegmentTreeNode` class: fields `start`, `end` (named `end_` since
`end` is a Lean keyword), `value`, and the optional children `left`, `right`. -/
inductive SegmentTreeNode : Type where
  | mk (start end_ value : Int) (left right : Option SegmentTreeNode)

namespace SegmentTreeNode

/-- Field accessor for `start`. -/
def start : SegmentTreeNode → Int
  | .mk s _ _ _ _ => s

/-- Field accessor for `end`. -/
def end_ : SegmentTreeNode → Int
  | .mk _ e _ _ _ => e

/-- Field accessor for `value`. -/
def value : SegmentTreeNode → Int
  | .mk _ _ v _ _ => v

/-- Field accessor for `left`. -/
def left : SegmentTreeNode → Option SegmentTreeNode
  | .mk _ _ _ l _ => l

/-- Field accessor for `right`. -/
def right : SegmentTreeNode → Option SegmentTreeNode
  | .mk _ _ _ _ r => r

end SegmentTreeNode

/-- The Python expression `node.value if node else 0` used on both children
in `_update`'s recomputation line. -/
def optValue : Option SegmentTreeNode → Int
  | none => 0
  | some n => n.value

namespace SegmentTree

/-- The method `SegmentTree._build(nums, start, end)`: leaf when `start == end`,
otherwise split at `mid = (start+end)//2` and sum the children's values.
The source is only ever called with `start <= end` (from `__init__` with
`0, len(nums)-1` and the recursive calls, which preserve it); on
`start > end` the Python recursion does not terminate, so the final
(unreachable) branch here is arbitrary.  List indexing `nums[start]`
is modelled with `getD` (in all reachable calls `start < nums.length`). -/
def _build (nums : List Int) (start end_ : Nat) : SegmentTreeNode :=
  if start = end_ then
    .mk start end_ (nums.getD start 0) none none
  else if _h : start < end_ then
    let mid := (start + end_) / 2
    let l := _build nums start mid
    let r := _build nums (mid + 1) end_
    .mk start end_ (l.value + r.value) (some l) (some r)
  else
    .mk start end_ (nums.getD start 0) none none
termination_by end_ - start
decreasing_by
  · omega
  · omega

/-- The constructor `SegmentTree.__init__(nums)`: raises `ValueError("Input list cannot be
empty.")` on an empty list, otherwise stores `_build(nums, 0, len(nums)-1)`
as the root. -/
def init (nums : List Int) : Except String SegmentTreeNode :=
  if nums = [] then .error "Input list cannot be empty."
  else .ok (_build nums 0 (nums.length - 1))

/-- The method `SegmentTree._update(node, index, new_value)`, modelled functionally:
the returned tree is the state of `node` after the mutating call.
Mirrors the source line by line: the chained comparison
`node.start == node.end == index` sets the leaf; otherwise descend into
`left` when it exists and `index <= left.end`, else into `right` when it
exists; finally recompute `value` from the (possibly `None`) children. -/
def _update : SegmentTreeNode → Int → Int → SegmentTreeNode
  | .mk s e _ l r, index, newValue =>
    if s = e ∧ e = index then .mk s e newValue l r
    else
      let c : Option SegmentTreeNode × Option SegmentTreeNode :=
        match l with
        | some nl =>
          if index ≤ nl.end_ then (some (_update nl index newValue), r)
          else
            match r with
            | some nr => (l, some (_update nr index newValue))
            | none => (l, r)
        | none =>
          match r with
          | some nr => (l, some (_update nr index newValue))
          | none => (l, r)
      .mk s e (optValue c.1 + optValue c.2) c.1 c.2

/-- The method `SegmentTree.update(index, new_value)`: delegates to `_update` on the
root.  The Python method returns `None`; here the new root is returned. -/
def update (root : SegmentTreeNode) (index newValue : Int) : SegmentTreeNode :=
  _update root index newValue

/-- The method `SegmentTree._query(node, left, right)`: `0` when the node is `None` or
disjoint from the range, the node's `value` on full containment, and the
sum of the two child queries otherwise. -/
def _query : Option SegmentTreeNode → Int → Int → Int
  | none, _, _ => 0
  | some (.mk s e v l r), left, right =>
    if e < left ∨ s > right then 0
    else if left ≤ s ∧ e ≤ right then v
    else _query l left right + _query r left right

/-- The method `SegmentTree.query(left, right)`: delegates to `_query` on the root. -/
def query (root : SegmentTreeNode) (left right : Int) : Int :=
  _query (some root) left right

end SegmentTree

/-! ### Specification-side definitions -/

/-- The reference array as a function `Nat → Int`: index `i` holds the
current element at `i`.  Initially `fun i => nums.getD i 0`. -/
def refOf (nums : List Int) : Nat → Int := fun i => nums.getD i 0

/-- Apply a list of `(index, new_value)` updates to the reference array. -/
def applyRef (f : Nat → Int) (us : List (Nat × Int)) : Nat → Int :=
  us.foldl (fun g u => Function.update g u.1 u.2) f

/-- Apply a list of `(index, new_value)` updates to a tree via
`SegmentTree.update`. -/
def applyUpdates (t : SegmentTreeNode) (us : List (Nat × Int)) : SegmentTreeNode :=
  us.foldl (fun s u => SegmentTree.update s (u.1 : Int) u.2) t

/-- Abstraction relation: `t` is a well-formed segment tree over the index interval `[lo, hi]`
whose current elements are given by `f`: leaves hold `f i`, internal nodes
split at `mid = (lo + hi) / 2` and carry the sum of their children's
values.  Every tree reachable by `_build` followed by in-range updates
satisfies this. -/
inductive Represents (f : Nat → Int) : Nat → Nat → SegmentTreeNode → Prop where
  | leaf (i : Nat) : Represents f i i (.mk i i (f i) none none)
  | node (lo hi : Nat) (l r : SegmentTreeNode) (hlt : lo < hi)
      (hl : Represents f lo ((lo + hi) / 2) l)
      (hr : Represents f ((lo + hi) / 2 + 1) hi r) :
      Represents f lo hi (.mk lo hi (l.value + r.value) (some l) (some r))

/-- The subtree of `t` reached by following a list of directions
(`false` = left child, `true` = right child); `none` when the walk falls
off the tree. -/
def subtreeAt : SegmentTreeNode → List Bool → Option SegmentTreeNode
  | t, [] => some t
  | .mk _ _ _ l _, false :: p =>
    match l with
    | none => none
    | some c => subtreeAt c p
  | .mk _ _ _ _ r, true :: p =>
    match r with
    | none => none
    | some c => subtreeAt c p

/-- The shape of a tree: everything except the `value` fields. -/
inductive TreeShape : Type where
  | mk (start end_ : Int) (left right : Option TreeShape)

/-- Erase the `value` fields of a tree, keeping ranges and structure. -/
def shape : SegmentTreeNode → TreeShape
  | .mk s e _ l r =>
    .mk s e
      (match l with | none => none | some c => some (shape c))
      (match r with | none => none | some c => some (shape c))

/-- The root-to-leaf path (as a list of directions) that the update
recursion takes for index `i` in a well-formed tree over `[lo, hi]`. -/
def pathToLeaf (lo hi i : Nat) : List Bool :=
  if _h : lo < hi then
    if i ≤ (lo + hi) / 2 then false :: pathToLeaf lo ((lo + hi) / 2) i
    else true :: pathToLeaf ((lo + hi) / 2 + 1) hi i
  else []
termination_by hi - lo
decreasing_by
  · omega
  · omega

/-- The per-node invariant from the spec: a leaf (no children) holds the
current element at its index; a node with a child holds the sum of its
children's values (for an internal node with both children this is
`left.value + right.value`). -/
def nodeInv (f : Nat → Int) : SegmentTreeNode → Prop
  | .mk s _ v none none => v = f s.toNat
  | .mk _ _ v l r => v = optValue l + optValue r

/-- Every node of the tree satisfies `nodeInv`. -/
def InvariantWith (f : Nat → Int) (t : SegmentTreeNode) : Prop :=
  ∀ p n, subtreeAt t p = some n → nodeInv f n

/-! ### Basic lemmas about `Represents` -/

lemma Represents.start_end {f : Nat → Int} {lo hi : Nat} {t : SegmentTreeNode}
    (h : Represents f lo hi t) : t.start = (lo : Int) ∧ t.end_ = (hi : Int) := by
  cases h <;> simp [SegmentTreeNode.start, SegmentTreeNode.end_]

lemma sum_Icc_split (f : Nat → Int) {lo m hi : Nat} (h1 : lo ≤ m) (h2 : m ≤ hi) :
    (∑ i ∈ Finset.Icc lo m, f i) + (∑ i ∈ Finset.Icc (m + 1) hi, f i)
      = ∑ i ∈ Finset.Icc lo hi, f i := by
  have hU : Finset.Icc lo m ∪ Finset.Icc (m + 1) hi = Finset.Icc lo hi := by
    ext x
    simp only [Finset.mem_union, Finset.mem_Icc]
    omega
  have hD : Disjoint (Finset.Icc lo m) (Finset.Icc (m + 1) hi) := by
    simp only [Finset.disjoint_left, Finset.mem_Icc]
    omega
  rw [← hU, Finset.sum_union hD]

lemma Represents.value_eq {f : Nat → Int} {lo hi : Nat} {t : SegmentTreeNode}
    (h : Represents f lo hi t) : t.value = ∑ i ∈ Finset.Icc lo hi, f i := by
  induction h with
  | leaf i => simp [SegmentTreeNode.value]
  | node lo hi l r hlt hl hr ihl ihr =>
    have hmid1 : lo ≤ (lo + hi) / 2 := by omega
    have hmid2 : (lo + hi) / 2 ≤ hi := by omega
    simp only [SegmentTreeNode.value] at ihl ihr ⊢
    rw [ihl, ihr, sum_Icc_split f hmid1 hmid2]

lemma Represents.congr {f g : Nat → Int} {lo hi : Nat} {t : SegmentTreeNode}
    (h : Represents f lo hi t) (hfg : ∀ j, lo ≤ j → j ≤ hi → f j = g j) :
    Represents g lo hi t := by
  induction h with
  | leaf i =>
    rw [hfg i le_rfl le_rfl]
    exact Represents.leaf i
  | node lo hi l r hlt hl hr ihl ihr =>
    exact Represents.node lo hi l r hlt
      (ihl fun j h1 h2 => hfg j h1 (by omega))
      (ihr fun j h1 h2 => hfg j (by omega) h2)

/-- Building produces a well-formed tree: `_build` yields a tree over `[lo, hi]` representing the
input list, whenever `lo ≤ hi < nums.length`. -/
theorem build_represents (nums : List Int) (lo hi : Nat)
    (h1 : lo ≤ hi) (h2 : hi < nums.length) :
    Represents (refOf nums) lo hi (SegmentTree._build nums lo hi) := by
  rw [SegmentTree._build]
  by_cases heq : lo = hi
  · subst heq
    simp only [if_pos rfl]
    exact Represents.leaf lo
  · have hlt : lo < hi := by omega
    simp only [if_neg heq, dif_pos hlt]
    exact Represents.node lo hi _ _ hlt
      (build_represents nums lo ((lo + hi) / 2) (by omega) (by omega))
      (build_represents nums ((lo + hi) / 2 + 1) hi (by omega) h2)
termination_by hi - lo
decreasing_by
  · omega
  · omega

/-- Updating at an in-range index turns a tree representing `f` into a
tree representing `Function.update f i v`. -/
lemma update_represents {f : Nat → Int} {lo hi : Nat} {t : SegmentTreeNode}
    (h : Represents f lo hi t) (i : Nat) (v : Int) :
    lo ≤ i → i ≤ hi →
      Represents (Function.update f i v) lo hi (SegmentTree._update t (i : Int) v) := by
  induction h with
  | leaf j =>
    intro h1 h2
    have hij : i = j := by omega
    subst hij
    have hc := Represents.leaf (f := Function.update f i v) i
    rw [Function.update_same] at hc
    simpa [SegmentTree._update] using hc
  | node lo hi l r hlt hl hr ihl ihr =>
    intro h1 h2
    have hle : l.end_ = (((lo + hi) / 2 : Nat) : Int) := hl.start_end.2
    simp only [SegmentTree._update]
    rw [if_neg (by omega)]
    by_cases hmid : i ≤ (lo + hi) / 2
    · rw [if_pos (by rw [hle]; exact_mod_cast hmid)]
      simp only [optValue]
      exact Represents.node lo hi _ r hlt (ihl h1 hmid)
        (hr.congr fun j hj1 hj2 => by
          rw [Function.update_apply, if_neg (by omega)])
    · rw [if_neg (by rw [hle]; exact_mod_cast hmid)]
      simp only [optValue]
      exact Represents.node lo hi l _ hlt
        (hl.congr fun j hj1 hj2 => by
          rw [Function.update_apply, if_neg (by omega)])
        (ihr (by omega) h2)

/-- A given element function and interval determine the tree uniquely. -/
lemma Represents.unique {f : Nat → Int} {lo hi : Nat} {t1 t2 : SegmentTreeNode}
    (h1 : Represents f lo hi t1) (h2 : Represents f lo hi t2) : t1 = t2 := by
  induction h1 generalizing t2 with
  | leaf i =>
    cases h2 with
    | leaf => rfl
    | node _ _ _ _ hlt _ _ => omega
  | node lo hi l r hlt hl hr ihl ihr =>
    cases h2 with
    | leaf j => omega
    | node _ _ l2 r2 _ hl2 hr2 => rw [ihl hl2, ihr hr2]

/-- Querying a well-formed tree returns the sum of the current elements
over the intersection of `[lo, hi]` with `[L, R]`, for arbitrary integer
bounds `L`, `R`. -/
lemma query_eq {f : Nat → Int} {lo hi : Nat} {t : SegmentTreeNode}
    (h : Represents f lo hi t) (L R : Int) :
    SegmentTree._query (some t) L R
      = ∑ i ∈ Finset.Icc lo hi, if L ≤ (i : Int) ∧ (i : Int) ≤ R then f i else 0 := by
  induction h with
  | leaf i =>
    simp only [SegmentTree._query, Finset.Icc_self, Finset.sum_singleton]
    by_cases hc : L ≤ (i : Int) ∧ (i : Int) ≤ R
    · rw [if_neg (by omega), if_pos hc, if_pos hc]
    · rw [if_pos (by omega), if_neg hc]
  | node lo hi l r hlt hl hr ihl ihr =>
    simp only [SegmentTree._query]
    by_cases hdisj : ((hi : Nat) : Int) < L ∨ ((lo : Nat) : Int) > R
    · rw [if_pos hdisj]
      symm
      apply Finset.sum_eq_zero
      intro x hx
      simp only [Finset.mem_Icc] at hx
      rw [if_neg (by omega)]
    · rw [if_neg hdisj]
      by_cases hcont : L ≤ ((lo : Nat) : Int) ∧ ((hi : Nat) : Int) ≤ R
      · rw [if_pos hcont]
        rw [hl.value_eq, hr.value_eq, sum_Icc_split f (by omega) (by omega)]
        apply Finset.sum_congr rfl
        intro x hx
        simp only [Finset.mem_Icc] at hx
        rw [if_pos (by omega)]
      · rw [if_neg hcont, ihl, ihr,
          sum_Icc_split (fun i => if L ≤ (i : Int) ∧ (i : Int) ≤ R then f i else 0)
            (by omega) (by omega)]

/-- Applying any list of in-range updates preserves `Represents`,
updating the element function alongside. -/
lemma applyUpdates_represents {f : Nat → Int} {lo hi : Nat} {t : SegmentTreeNode}
    {us : List (Nat × Int)} (h : Represents f lo hi t)
    (hus : ∀ u ∈ us, lo ≤ u.1 ∧ u.1 ≤ hi) :
    Represents (applyRef f us) lo hi (applyUpdates t us) := by
  induction us generalizing f t with
  | nil => exact h
  | cons u us ih =>
    simp only [applyRef, applyUpdates, List.foldl_cons] at *
    exact ih
      (update_represents h u.1 u.2 (hus u (by simp)).1 (hus u (by simp)).2)
      (fun w hw => hus w (by simp [hw]))

/-- A successful construction means the input was non-empty and the root
is `_build nums 0 (len-1)`. -/
lemma init_ok {nums : List Int} {t0 : SegmentTreeNode}
    (h : SegmentTree.init nums = .ok t0) :
    nums ≠ [] ∧ t0 = SegmentTree._build nums 0 (nums.length - 1) := by
  unfold SegmentTree.init at h
  by_cases hne : nums = []
  · rw [if_pos hne] at h
    exact absurd h (by simp)
  · rw [if_neg hne] at h
    simp only [Except.ok.injEq] at h
    exact ⟨hne, h.symm⟩

/-- Any tree reachable from a successful construction by a list of
in-range updates represents the correspondingly updated reference array. -/
lemma init_updates_represents {nums : List Int} {t0 : SegmentTreeNode}
    {us : List (Nat × Int)} (h : SegmentTree.init nums = .ok t0)
    (hus : ∀ u ∈ us, u.1 < nums.length) :
    Represents (applyRef (refOf nums) us) 0 (nums.length - 1) (applyUpdates t0 us) := by
  obtain ⟨hne, rfl⟩ := init_ok h
  have hlen : 0 < nums.length := List.length_pos.mpr hne
  exact applyUpdates_represents
    (build_represents nums 0 (nums.length - 1) (by omega) (by omega))
    (fun u hu => ⟨Nat.zero_le _, by have := hus u hu; omega⟩)

/-! ### Claim theorems -/

/-- C1: for a tree constructed from a non-empty list and any sequence of
valid updates, `Query(a, b)` with `0 ≤ a ≤ b ≤ n-1` returns the sum of
the current elements (original values overridden by the updates) at
indices `a` through `b` inclusive. -/
theorem query_returns_range_sum (nums : List Int) (t0 : SegmentTreeNode)
    (us : List (Nat × Int)) (h : SegmentTree.init nums = .ok t0)
    (hus : ∀ u ∈ us, u.1 < nums.length)
    (a b : Nat) (_hab : a ≤ b) (hb : b ≤ nums.length - 1) :
    SegmentTree.query (applyUpdates t0 us) (a : Int) (b : Int)
      = ∑ i ∈ Finset.Icc a b, applyRef (refOf nums) us i := by
  have hrep := init_updates_represents h hus
  unfold SegmentTree.query
  rw [query_eq hrep, ← Finset.sum_filter]
  congr 1
  ext x
  simp only [Finset.mem_filter, Finset.mem_Icc]
  omega

/-- C1 witness: the theorem applied to `[1,3,5]` with the single update
`Update(1, 2)` and the query range `[0, 2]` (scenario 2 of the spec). -/
theorem query_returns_range_sum_witness :
    SegmentTree.query (applyUpdates (SegmentTree._build [1, 3, 5] 0 2) [(1, 2)]) 0 2
      = ∑ i ∈ Finset.Icc 0 2, applyRef (refOf [1, 3, 5]) [(1, 2)] i :=
  query_returns_range_sum [1, 3, 5] (SegmentTree._build [1, 3, 5] 0 2) [(1, 2)]
    rfl (by decide) 0 2 (by decide) (by decide)

/-- Summing the reference array over all indices gives the list sum. -/
lemma sum_range_refOf (nums : List Int) :
    ∑ i ∈ Finset.range nums.length, refOf nums i = nums.sum := by
  induction nums with
  | nil => simp
  | cons a tl ih =>
    rw [List.length_cons, Finset.sum_range_succ']
    simp only [refOf, List.getD_cons_succ, List.getD_cons_zero, List.sum_cons]
    rw [show (∑ i ∈ Finset.range tl.length, tl.getD i 0) = tl.sum from ih]
    ring

/-- C2: immediately after a successful construction, the root's `value`
equals the sum of all input elements. -/
theorem construct_root_value_eq_sum (nums : List Int) (t : SegmentTreeNode)
    (h : SegmentTree.init nums = .ok t) : t.value = nums.sum := by
  obtain ⟨hne, rfl⟩ := init_ok h
  have hlen : 0 < nums.length := List.length_pos.mpr hne
  rw [(build_represents nums 0 (nums.length - 1) (by omega) (by omega)).value_eq]
  have hIcc : Finset.Icc 0 (nums.length - 1) = Finset.range nums.length := by
    ext x
    simp only [Finset.mem_Icc, Finset.mem_range]
    omega
  rw [hIcc, sum_range_refOf]

/-- C2 witness: scenario 3 of the spec, `Construct([1,2,3])` has root
value `6`. -/
theorem construct_root_value_eq_sum_witness :
    (SegmentTree._build [1, 2, 3] 0 2).value = ([1, 2, 3] : List Int).sum :=
  construct_root_value_eq_sum [1, 2, 3] (SegmentTree._build [1, 2, 3] 0 2) rfl

/-- Every subtree of a well-formed tree is itself well-formed over some
sub-interval. -/
lemma Represents.subtree {f : Nat → Int} {lo hi : Nat} {t : SegmentTreeNode}
    (h : Represents f lo hi t) (p : List Bool) (n : SegmentTreeNode)
    (hp : subtreeAt t p = some n) : ∃ lo' hi', Represents f lo' hi' n := by
  induction p generalizing lo hi t with
  | nil =>
    simp only [subtreeAt, Option.some.injEq] at hp
    exact ⟨lo, hi, hp ▸ h⟩
  | cons d q ih =>
    cases h with
    | leaf i => cases d <;> simp [subtreeAt] at hp
    | node lo hi l r hlt hl hr =>
      cases d
      · exact ih hl (by simpa [subtreeAt] using hp)
      · exact ih hr (by simpa [subtreeAt] using hp)

/-- A well-formed node satisfies the per-node invariant. -/
lemma Represents.node_inv {f : Nat → Int} {lo hi : Nat} {t : SegmentTreeNode}
    (h : Represents f lo hi t) : nodeInv f t := by
  cases h with
  | leaf i => simp [nodeInv]
  | node lo hi l r hlt hl hr => simp [nodeInv, optValue]

/-- C3: after construction and any sequence of valid updates, every
internal node's `value` is the sum of its children's values, every leaf's
`value` is the current element at its index, and the root's `value` is
the sum of all current elements. -/
theorem invariant_after_updates (nums : List Int) (t0 : SegmentTreeNode)
    (us : List (Nat × Int)) (h : SegmentTree.init nums = .ok t0)
    (hus : ∀ u ∈ us, u.1 < nums.length) :
    InvariantWith (applyRef (refOf nums) us) (applyUpdates t0 us) ∧
    (applyUpdates t0 us).value
      = ∑ i ∈ Finset.Icc 0 (nums.length - 1), applyRef (refOf nums) us i := by
  have hrep := init_updates_represents h hus
  refine ⟨fun p n hp => ?_, hrep.value_eq⟩
  obtain ⟨lo', hi', hn⟩ := hrep.subtree p n hp
  exact hn.node_inv

/-- C3 witness: the invariant after `Construct([1,3,5])` and `Update(1,2)`. -/
theorem invariant_after_updates_witness :
    InvariantWith (applyRef (refOf [1, 3, 5]) [(1, 2)])
      (applyUpdates (SegmentTree._build [1, 3, 5] 0 2) [(1, 2)]) ∧
    (applyUpdates (SegmentTree._build [1, 3, 5] 0 2) [(1, 2)]).value
      = ∑ i ∈ Finset.Icc 0 2, applyRef (refOf [1, 3, 5]) [(1, 2)] i :=
  invariant_after_updates [1, 3, 5] (SegmentTree._build [1, 3, 5] 0 2) [(1, 2)]
    rfl (by decide)

/-- C6: construction fails with the `ValueError` (the `InvalidArgument`
of the spec) exactly on the empty list, and succeeds on every non-empty
list with a root covering `[0, n-1]`. -/
theorem construct_empty_fails_nonempty_succeeds (nums : List Int) :
    (nums = [] → SegmentTree.init nums = .error "Input list cannot be empty.") ∧
    (nums ≠ [] → ∃ t, SegmentTree.init nums = .ok t ∧
      t.start = 0 ∧ t.end_ = ((nums.length - 1 : Nat) : Int)) := by
  constructor
  · intro h
    rw [SegmentTree.init, if_pos h]
  · intro h
    have hlen : 0 < nums.length := List.length_pos.mpr h
    have hrep := build_represents nums 0 (nums.length - 1) (by omega) (by omega)
    exact ⟨_, by rw [SegmentTree.init, if_neg h],
      by simpa using hrep.start_end.1, hrep.start_end.2⟩

/-- C6 witness: `Construct([])` fails and `Construct([1,2,3])` returns a
tree over `[0, 2]`. -/
theorem construct_empty_fails_nonempty_succeeds_witness :
    SegmentTree.init [] = .error "Input list cannot be empty." ∧
    ∃ t, SegmentTree.init [1, 2, 3] = .ok t ∧
      t.start = 0 ∧ t.end_ = ((([1, 2, 3] : List Int).length - 1 : Nat) : Int) :=
  ⟨(construct_empty_fails_nonempty_succeeds []).1 rfl,
   (construct_empty_fails_nonempty_succeeds [1, 2, 3]).2 (by decide)⟩

/-- C9: on any reachable tree, updating the same valid index with the
same value twice yields exactly the tree obtained by one update. -/
theorem update_twice_eq_once (nums : List Int) (t0 : SegmentTreeNode)
    (us : List (Nat × Int)) (h : SegmentTree.init nums = .ok t0)
    (hus : ∀ u ∈ us, u.1 < nums.length) (i : Nat) (v : Int)
    (hi : i < nums.length) :
    SegmentTree.update (SegmentTree.update (applyUpdates t0 us) (i : Int) v) (i : Int) v
      = SegmentTree.update (applyUpdates t0 us) (i : Int) v := by
  have hrep := init_updates_represents h hus
  have h1 := update_represents hrep i v (Nat.zero_le _) (by omega)
  have h2 := update_represents h1 i v (Nat.zero_le _) (by omega)
  rw [Function.update_idem] at h2
  exact Represents.unique h2 h1

/-- C9 witness: `Update(1, 7)` twice on the tree over `[1,3,5]`. -/
theorem update_twice_eq_once_witness :
    SegmentTree.update
        (SegmentTree.update (applyUpdates (SegmentTree._build [1, 3, 5] 0 2) []) 1 7) 1 7
      = SegmentTree.update (applyUpdates (SegmentTree._build [1, 3, 5] 0 2) []) 1 7 :=
  update_twice_eq_once [1, 3, 5] (SegmentTree._build [1, 3, 5] 0 2) []
    rfl (by decide) 1 7 (by decide)

/-- In a well-formed tree over `[lo, hi]`, `pathToLeaf lo hi i` leads from
the root to the leaf whose range is `[i, i]`. -/
lemma path_leads_to_leaf {f : Nat → Int} {lo hi : Nat} {t : SegmentTreeNode}
    (h : Represents f lo hi t) (i : Nat) :
    lo ≤ i → i ≤ hi → ∃ n, subtreeAt t (pathToLeaf lo hi i) = some n ∧
      n.start = (i : Int) ∧ n.end_ = (i : Int) := by
  induction h with
  | leaf j =>
    intro h1 h2
    have hij : i = j := by omega
    subst hij
    rw [pathToLeaf, dif_neg (by omega)]
    exact ⟨_, rfl, rfl, rfl⟩
  | node lo hi l r hlt hl hr ihl ihr =>
    intro h1 h2
    rw [pathToLeaf, dif_pos hlt]
    by_cases hmid : i ≤ (lo + hi) / 2
    · rw [if_pos hmid]
      simpa only [subtreeAt] using ihl h1 hmid
    · rw [if_neg hmid]
      simpa only [subtreeAt] using ihr (by omega) h2

/-- Updating at an in-range index changes only `value` fields (the shape
is untouched) and leaves every subtree not on the update path identical. -/
lemma update_frame {f : Nat → Int} {lo hi : Nat} {t : SegmentTreeNode}
    (h : Represents f lo hi t) (i : Nat) (v : Int) :
    lo ≤ i → i ≤ hi →
      shape (SegmentTree._update t (i : Int) v) = shape t ∧
      ∀ p, ¬ (p <+: pathToLeaf lo hi i) →
        subtreeAt (SegmentTree._update t (i : Int) v) p = subtreeAt t p := by
  induction h with
  | leaf j =>
    intro h1 h2
    have hij : i = j := by omega
    subst hij
    have ht' : SegmentTree._update (.mk i i (f i) none none) (i : Int) v
        = .mk i i v none none := by
      simp [SegmentTree._update]
    rw [ht']
    refine ⟨by simp [shape], fun p hp => ?_⟩
    rw [pathToLeaf, dif_neg (by omega)] at hp
    match p with
    | [] => exact absurd List.nil_prefix hp
    | d :: q => cases d <;> simp [subtreeAt]
  | node lo hi l r hlt hl hr ihl ihr =>
    intro h1 h2
    have hle : l.end_ = (((lo + hi) / 2 : Nat) : Int) := hl.start_end.2
    simp only [SegmentTree._update]
    rw [if_neg (by omega)]
    by_cases hmid : i ≤ (lo + hi) / 2
    · rw [if_pos (by rw [hle]; exact_mod_cast hmid)]
      simp only [optValue]
      obtain ⟨ihs, ihf⟩ := ihl h1 hmid
      refine ⟨by simp only [shape]; rw [ihs], fun p hp => ?_⟩
      rw [pathToLeaf, dif_pos hlt, if_pos hmid] at hp
      match p with
      | [] => exact absurd List.nil_prefix hp
      | false :: q =>
        have hq : ¬ (q <+: pathToLeaf lo ((lo + hi) / 2) i) :=
          fun hq => hp (List.cons_prefix_cons.mpr ⟨rfl, hq⟩)
        simpa only [subtreeAt] using ihf q hq
      | true :: q => simp only [subtreeAt]
    · rw [if_neg (by rw [hle]; exact_mod_cast hmid)]
      simp only [optValue]
      obtain ⟨ihs, ihf⟩ := ihr (by omega) h2
      refine ⟨by simp only [shape]; rw [ihs], fun p hp => ?_⟩
      rw [pathToLeaf, dif_pos hlt, if_neg hmid] at hp
      match p with
      | [] => exact absurd List.nil_prefix hp
      | true :: q =>
        have hq : ¬ (q <+: pathToLeaf ((lo + hi) / 2 + 1) hi i) :=
          fun hq => hp (List.cons_prefix_cons.mpr ⟨rfl, hq⟩)
        simpa only [subtreeAt] using ihf q hq
      | false :: q => simp only [subtreeAt]

/-- C10: a valid `Update(i, v)` changes only `value` fields of nodes on
the root-to-leaf path for `i` (whose end is the leaf with range `[i, i]`);
every subtree hanging off that path is left entirely unchanged. -/
theorem update_touches_only_path (nums : List Int) (t0 : SegmentTreeNode)
    (us : List (Nat × Int)) (h : SegmentTree.init nums = .ok t0)
    (hus : ∀ u ∈ us, u.1 < nums.length) (i : Nat) (v : Int)
    (hi : i < nums.length) :
    shape (SegmentTree.update (applyUpdates t0 us) (i : Int) v) = shape (applyUpdates t0 us) ∧
    (∃ n, subtreeAt (applyUpdates t0 us) (pathToLeaf 0 (nums.length - 1) i) = some n ∧
      n.start = (i : Int) ∧ n.end_ = (i : Int)) ∧
    ∀ p, ¬ (p <+: pathToLeaf 0 (nums.length - 1) i) →
      subtreeAt (SegmentTree.update (applyUpdates t0 us) (i : Int) v) p
        = subtreeAt (applyUpdates t0 us) p := by
  have hrep := init_updates_represents h hus
  obtain ⟨hs, hf⟩ := update_frame hrep i v (Nat.zero_le _) (by omega)
  exact ⟨hs, path_leads_to_leaf hrep i (Nat.zero_le _) (by omega), hf⟩

/-- C10 witness: `Update(1, 7)` on the freshly built tree over `[1,3,5]`. -/
theorem update_touches_only_path_witness :
    shape (SegmentTree.update (applyUpdates (SegmentTree._build [1, 3, 5] 0 2) []) 1 7)
        = shape (applyUpdates (SegmentTree._build [1, 3, 5] 0 2) []) ∧
    (∃ n, subtreeAt (applyUpdates (SegmentTree._build [1, 3, 5] 0 2) [])
        (pathToLeaf 0 (([1, 3, 5] : List Int).length - 1) 1) = some n ∧
      n.start = 1 ∧ n.end_ = 1) ∧
    ∀ p, ¬ (p <+: pathToLeaf 0 (([1, 3, 5] : List Int).length - 1) 1) →
      subtreeAt (SegmentTree.update (applyUpdates (SegmentTree._build [1, 3, 5] 0 2) []) 1 7) p
        = subtreeAt (applyUpdates (SegmentTree._build [1, 3, 5] 0 2) []) p :=
  update_touches_only_path [1, 3, 5] (SegmentTree._build [1, 3, 5] 0 2) []
    rfl (by decide) 1 7 (by decide)

/-- C8: for any integers `L ≤ R` (also partially or fully outside the
tree), `Query(L, R)` on a reachable tree returns the sum of the current
elements over the intersection of `[L, R]` with `[0, n-1]`; in
particular `0` when the intersection is empty. -/
theorem query_sums_intersection (nums : List Int) (t0 : SegmentTreeNode)
    (us : List (Nat × Int)) (h : SegmentTree.init nums = .ok t0)
    (hus : ∀ u ∈ us, u.1 < nums.length) (L R : Int) (_hLR : L ≤ R) :
    SegmentTree.query (applyUpdates t0 us) L R
      = ∑ i ∈ (Finset.Icc 0 (nums.length - 1)).filter
          (fun i : Nat => L ≤ (i : Int) ∧ (i : Int) ≤ R), applyRef (refOf nums) us i ∧
    ((Finset.Icc 0 (nums.length - 1)).filter
          (fun i : Nat => L ≤ (i : Int) ∧ (i : Int) ≤ R) = ∅ →
      SegmentTree.query (applyUpdates t0 us) L R = 0) := by
  have hrep := init_updates_represents h hus
  have hmain : SegmentTree.query (applyUpdates t0 us) L R
      = ∑ i ∈ (Finset.Icc 0 (nums.length - 1)).filter
          (fun i : Nat => L ≤ (i : Int) ∧ (i : Int) ≤ R), applyRef (refOf nums) us i := by
    unfold SegmentTree.query
    rw [query_eq hrep, Finset.sum_filter]
  refine ⟨hmain, fun hempty => ?_⟩
  rw [hmain, hempty, Finset.sum_empty]

/-- C8 witness: on the untouched tree over `[1,3,5]`, `Query(1, 5)`
(range partially outside `[0, 2]`) sums indices `1` and `2`. -/
theorem query_sums_intersection_witness :
    SegmentTree.query (applyUpdates (SegmentTree._build [1, 3, 5] 0 2) []) 1 5
      = ∑ i ∈ (Finset.Icc 0 (([1, 3, 5] : List Int).length - 1)).filter
          (fun i : Nat => 1 ≤ (i : Int) ∧ (i : Int) ≤ 5), applyRef (refOf [1, 3, 5]) [] i ∧
    ((Finset.Icc 0 (([1, 3, 5] : List Int).length - 1)).filter
          (fun i : Nat => 1 ≤ (i : Int) ∧ (i : Int) ≤ 5) = ∅ →
      SegmentTree.query (applyUpdates (SegmentTree._build [1, 3, 5] 0 2) []) 1 5 = 0) :=
  query_sums_intersection [1, 3, 5] (SegmentTree._build [1, 3, 5] 0 2) []
    rfl (by decide) 1 5 (by decide)

/-- On every reversed range (`right < left`), `_query` returns `0`, for any
node whatsoever: the containment branch is unreachable and every path ends
in the no-overlap base case. -/
lemma query_zero_of_reversed : ∀ (o : Option SegmentTreeNode) (L R : Int), R < L →
    SegmentTree._query o L R = 0
  | none, L, R, _h => by simp [SegmentTree._query]
  | some (.mk s e v l r), L, R, h => by
    simp only [SegmentTree._query]
    by_cases h1 : e < L ∨ s > R
    · rw [if_pos h1]
    · rw [if_neg h1, if_neg (by omega),
        query_zero_of_reversed l L R h, query_zero_of_reversed r L R h]
      norm_num

/-- C7 counterexample: the malformed call `Query(2, 1)` (`left > right`)
on the tree built from `[1,3,5]` is not rejected: it completes normally
and returns `0`.  Neither `query` nor `_query` in the source has any
failure path, so no `InvalidArgument` error is signaled. -/
theorem query_malformed_range_not_signaled :
    SegmentTree.query (SegmentTree._build [1, 3, 5] 0 2) 2 1 = 0 := by
  simp [SegmentTree.query, SegmentTree._build, SegmentTree._query]

/-- C7 amended: a malformed `Query` range with `left > right` is not
detected or signaled; the call silently returns `0` through the
no-overlap base case, on every tree. -/
theorem query_malformed_range_returns_zero (t : SegmentTreeNode) (L R : Int)
    (h : R < L) : SegmentTree.query t L R = 0 :=
  query_zero_of_reversed (some t) L R h

/-- C7 amended witness: `Query(2, 1)` on a single-leaf tree returns `0`. -/
theorem query_malformed_range_returns_zero_witness :
    SegmentTree.query (.mk 0 0 5 none none) 2 1 = 0 :=
  query_malformed_range_returns_zero (.mk 0 0 5 none none) 2 1 (by decide)

/-- C4: the code performs no index validation.  `Update(3, 10)` on the
tree built from `[1,2,3]` (valid indices `[0, 2]`) does not fail: the
recursion falls through to the right child at every level, reaches the
leaf `[2,2]`, misses the chained equality test, zeroes that leaf's value
(both children of a leaf are `None`) and recomputes the root to `3`. -/
theorem update_out_of_range_mutates :
    SegmentTree.update (SegmentTree._build [1, 2, 3] 0 2) 3 10
      = .mk 0 2 3
          (some (.mk 0 1 3 (some (.mk 0 0 1 none none)) (some (.mk 1 1 2 none none))))
          (some (.mk 2 2 0 none none)) := by
  simp [SegmentTree.update, SegmentTree._update, SegmentTree._build,
    SegmentTreeNode.end_, SegmentTreeNode.value, optValue]

/-- C5: an out-of-range update is a partial-failure state: `Update(3, 10)`
on the tree built from `[1,2,3]` completes, mutates node values, and
silently corrupts the leaf at index `2` — `Query(2, 2)` drops from `3`
to `0` although index `2` was never the target of any update. -/
theorem update_out_of_range_corrupts_leaf :
    SegmentTree.query (SegmentTree.update (SegmentTree._build [1, 2, 3] 0 2) 3 10) 2 2 = 0 ∧
    SegmentTree.query (SegmentTree._build [1, 2, 3] 0 2) 2 2 = 3 := by
  constructor <;>
    simp [SegmentTree.query, SegmentTree.update, SegmentTree._update,
      SegmentTree._build, SegmentTree._query, SegmentTreeNode.end_,
      SegmentTreeNode.value, optValue]
